import Mathlib

/-!
Shallow embedding of the bilateral-phase analysis pipeline of the
mlehaptics repository (src/scripts/analyze_bilateral_phase.py,
src/scripts/analyze_bilateral_phase_detailed.py,
src/scripts/analyze_bilateral_timing_fixed.py).

Lines of a log are modelled as lists of characters (one physical line,
without its trailing newline).  The Python scripts clean each line with
line.replace(' ', '') and then apply literal regular expressions; the
regexes used are all of the shape  literal (\d+) literal ... , so each is
embedded as a deterministic scanner: at every start position the literal
pieces are matched in order with maximal digit runs in between (for these
patterns greedy matching with backtracking coincides with maximal-run
matching, because every literal that follows a digit group starts with a
non-digit character).  re.search returns the leftmost successful start
position, which is what the position scan below computes.
-/

/-- Python line.replace(' ', ''): drop every space character of the line. -/
def removeSpaces (l : List Char) : List Char := l.filter (fun c => c ≠ ' ')

/-- Numeric value of a digit run, as int(...) computes it. -/
def digitsVal (ds : List Char) : Nat := ds.foldl (fun a c => 10 * a + (c.toNat - 48)) 0

/-- Regex fragment (\d+): maximal nonempty digit run at the head, with the rest. -/
def parseDigits (l : List Char) : Option (Nat × List Char) :=
  let ds := l.takeWhile (fun c => c.isDigit)
  if ds.isEmpty then none else some (digitsVal ds, l.dropWhile (fun c => c.isDigit))

/-- Match a literal at the head of the input and return the remainder. -/
def stripLit : List Char → List Char → Option (List Char)
  | [], l => some l
  | _ :: _, [] => none
  | p :: ps, c :: cs => if p = c then stripLit ps cs else none

/-- Case-insensitive variant of stripLit (for the one re.IGNORECASE pattern). -/
def stripLitCI : List Char → List Char → Option (List Char)
  | [], l => some l
  | _ :: _, [] => none
  | p :: ps, c :: cs => if p.toLower = c.toLower then stripLitCI ps cs else none

/-- Boolean test: pat occurs at the head of the second argument. -/
def beginsWith : List Char → List Char → Bool
  | [], _ => true
  | _ :: _, [] => false
  | p :: ps, c :: cs => p == c && beginsWith ps cs

/-- Boolean test: pat occurs somewhere in the line (regex .* ... existence). -/
def hasSub (pat : List Char) : List Char → Bool
  | [] => pat.isEmpty
  | c :: t => beginsWith pat (c :: t) || hasSub pat t

/-- Leftmost-position search: try the pattern scanner at every suffix. -/
def searchO {α : Type} (f : List Char → Option α) : List Char → Option α
  | [] => f []
  | c :: t =>
    match f (c :: t) with
    | some r => some r
    | none => searchO f t

/-- Literal pieces of the regexes, written on the space-cleaned line. -/
def epochLitA : List Char := ("Motorepochset:").toList

/-- Middle literal of the epoch regex. -/
def epochLitB : List Char := ("us,cycle:").toList

/-- Trailing literal of the epoch regex. -/
def epochLitC : List Char := ("ms").toList

/-- The safety-critical activation literal: CyclestartsACTIVE. -/
def activeLit : List Char := ("CyclestartsACTIVE").toList

/-- Leading literal of the timestamp group. -/
def iParenLit : List Char := ("I(").toList

/-- Literal between the timestamp group and the activation tail. -/
def taskLit : List Char := (")MOTOR_TASK:").toList

/-- Bare MOTOR_TASK literal used by the detailed script's activation regex. -/
def taskLit2 : List Char := ("MOTOR_TASK:").toList

/-- Closing parenthesis literal. -/
def cParenLit : List Char := (")").toList

/-- Scanner for  Motorepochset:(\d+)us,cycle:(\d+)ms  at one position; yields group 2. -/
def tryEpochAt (l : List Char) : Option Nat :=
  match stripLit epochLitA l with
  | none => none
  | some l1 =>
    match parseDigits l1 with
    | none => none
    | some (_, l2) =>
      match stripLit epochLitB l2 with
      | none => none
      | some l3 =>
        match parseDigits l3 with
        | none => none
        | some (cyc, l4) =>
          match stripLit epochLitC l4 with
          | none => none
          | some _ => some cyc

/-- re.search of the epoch regex on a cleaned line: the extracted cycle period. -/
def matchEpoch (l : List Char) : Option Nat := searchO tryEpochAt l

/-- Scanner for  I\((\d+)\)MOTOR_TASK:.*CyclestartsACTIVE  at one position; group 1. -/
def tryActiveAt (l : List Char) : Option Nat :=
  match stripLit iParenLit l with
  | none => none
  | some l1 =>
    match parseDigits l1 with
    | none => none
    | some (ts, l2) =>
      match stripLit taskLit l2 with
      | none => none
      | some l3 => if hasSub activeLit l3 then some ts else none

/-- re.search of the activation regex of analyze_bilateral_phase.py /
analyze_bilateral_timing_fixed.py on a cleaned line. -/
def matchActivePhase (l : List Char) : Option Nat := searchO tryActiveAt l

/-- Scanner for  I\((\d+)\)  at one position (detailed script's timestamp gate). -/
def tryTsAt (l : List Char) : Option Nat :=
  match stripLit iParenLit l with
  | none => none
  | some l1 =>
    match parseDigits l1 with
    | none => none
    | some (ts, l2) =>
      match stripLit cParenLit l2 with
      | none => none
      | some _ => some ts

/-- re.search of  I\((\d+)\)  on a cleaned line. -/
def matchTs (l : List Char) : Option Nat := searchO tryTsAt l

/-- Scanner for  MOTOR_TASK:.*CyclestartsACTIVE  at one position (detailed script). -/
def tryTaskActiveAt (l : List Char) : Bool :=
  match stripLit taskLit2 l with
  | none => false
  | some r => hasSub activeLit r

/-- re.search of  MOTOR_TASK:.*CyclestartsACTIVE  on a cleaned line, as a Bool. -/
def matchTaskActive : List Char → Bool
  | [] => false
  | c :: t => tryTaskActiveAt (c :: t) || matchTaskActive t

/-- Python truthiness of current_cycle_ms (None and 0 both suppress extraction):
the source guard is  if current_cycle_ms:  . -/
def gate : Option Nat → Bool
  | some c => c != 0
  | none => false

/-- current_cycle_ms update of one line: the epoch regex, when it matches,
overwrites the context (even with the value 0); otherwise the context is kept. -/
def ctxUpdate (ctx : Option Nat) (cl : List Char) : Option Nat :=
  match matchEpoch cl with
  | some c => some c
  | none => ctx

/-- One loop iteration of parse_log_active_only (analyze_bilateral_phase.py,
also the loop body of parse_log in analyze_bilateral_timing_fixed.py):
clean the line, update the period context, and emit the activation pair
(timestamp, period) when the activation regex matches and the context is truthy. -/
def stepPhase (ctx : Option Nat) (line : List Char) : Option Nat × Option (Nat × Nat) :=
  let cl := removeSpaces line
  let ctx1 := ctxUpdate ctx cl
  match matchActivePhase cl with
  | some ts =>
    match ctx1 with
    | some c => if c ≠ 0 then (ctx1, some (ts, c)) else (ctx1, none)
    | none => (ctx1, none)
  | none => (ctx1, none)

/-- The activation list produced from a given starting period context. -/
def parseActsFrom (ctx : Option Nat) : List (List Char) → List (Nat × Nat)
  | [] => []
  | l :: ls =>
    match stepPhase ctx l with
    | (ctx1, some a) => a :: parseActsFrom ctx1 ls
    | (ctx1, none) => parseActsFrom ctx1 ls

/-- parse_log_active_only of analyze_bilateral_phase.py: the non-deduplicated
extractor; activations in input line order, period context starting empty. -/
def parse_log_active_only (lines : List (List Char)) : List (Nat × Nat) :=
  parseActsFrom none lines

/-- Regex fragment \s*(\d+): optional whitespace, then a digit group. -/
def wsDigits (l : List Char) : Option Nat :=
  match parseDigits (l.dropWhile (fun c => c.isWhitespace)) with
  | some (v, _) => some v
  | none => none

/-- Leading literal of the rssi regex. -/
def rssiLit : List Char := ("rssi").toList

/-- First alternative of the rtt regex (matched case-insensitively). -/
def rttMeasLit : List Char := ("RTTmeasured:").toList

/-- Second alternative of the rtt regex. -/
def rttLit : List Char := ("rtt").toList

/-- Leading literal of the quality regex. -/
def qualityLit : List Char := ("quality").toList

/-- Scanner for  rssi[=:]\s*(-?\d+)  at one position. -/
def tryRssiAt (l : List Char) : Option Int :=
  match stripLit rssiLit l with
  | none => none
  | some l1 =>
    match l1 with
    | c :: l2 =>
      if c = '=' ∨ c = ':' then
        match l2.dropWhile (fun c => c.isWhitespace) with
        | '-' :: l3 =>
          match parseDigits l3 with
          | some (v, _) => some (-(v : Int))
          | none => none
        | l3 =>
          match parseDigits l3 with
          | some (v, _) => some ((v : Int))
          | none => none
      else none
    | [] => none

/-- re.search of the rssi regex on a cleaned line. -/
def matchRssi (l : List Char) : Option Int := searchO tryRssiAt l

/-- Scanner for  (RTTmeasured:|rtt[=:])\s*(\d+)  (re.IGNORECASE) at one position:
the first alternative is tried first, then, on any failure, the second. -/
def tryRttAt (l : List Char) : Option Nat :=
  match (match stripLitCI rttMeasLit l with
         | some r => wsDigits r
         | none => none) with
  | some v => some v
  | none =>
    match stripLitCI rttLit l with
    | none => none
    | some r1 =>
      match r1 with
      | c :: r2 => if c = '=' ∨ c = ':' then wsDigits r2 else none
      | [] => none

/-- re.search of the rtt regex on a cleaned line; yields the raw integer value. -/
def matchRtt (l : List Char) : Option Nat := searchO tryRttAt l

/-- Scanner for  quality[=:]\s*(\d+)%?  at one position (the %? does not
affect the captured group). -/
def tryQualityAt (l : List Char) : Option Nat :=
  match stripLit qualityLit l with
  | none => none
  | some l1 =>
    match l1 with
    | c :: l2 => if c = '=' ∨ c = ':' then wsDigits l2 else none
    | [] => none

/-- re.search of the quality regex on a cleaned line. -/
def matchQuality (l : List Char) : Option Nat := searchO tryQualityAt l

/-- RTT unit normalization (analyze_bilateral_phase_detailed.py lines 83-88):
a raw value above 1000 is treated as microseconds and divided by 1000,
otherwise the value is already milliseconds and kept as is.  The Python
floats are modelled as rationals. -/
def rttNorm (v : Nat) : ℚ := if 1000 < v then (v : ℚ) / 1000 else (v : ℚ)

/-- Python dict assignment d[k] = v: overwrite the existing entry in place,
or append a new one (insertion order is preserved). -/
def dinsert {α : Type} (k : Nat) (v : α) : List (Nat × α) → List (Nat × α)
  | [] => [(k, v)]
  | (k1, v1) :: t => if k1 = k then (k, v) :: t else (k1, v1) :: dinsert k v t

/-- Parser state of parse_log_with_metrics: the period context, the activation
list, and the three metric dicts (timestamp-keyed association lists). -/
structure DState where
  ctx : Option Nat
  acts : List (Nat × Nat)
  rssiM : List (Nat × Int)
  rttM : List (Nat × ℚ)
  qualM : List (Nat × Nat)

/-- One loop iteration of parse_log_with_metrics
(analyze_bilateral_phase_detailed.py lines 47-95): a line with no  I(\d+)
timestamp is skipped entirely; otherwise the epoch regex updates the period
context, the activation regex (gated by a truthy context) appends an
activation, and each metric regex stores its sample under the line timestamp. -/
def stepDetailed (s : DState) (line : List Char) : DState :=
  let cl := removeSpaces line
  match matchTs cl with
  | none => s
  | some ts =>
    let ctx1 := ctxUpdate s.ctx cl
    let acts1 :=
      if matchTaskActive cl then
        match ctx1 with
        | some c => if c ≠ 0 then s.acts ++ [(ts, c)] else s.acts
        | none => s.acts
      else s.acts
    let rssi1 :=
      match matchRssi cl with
      | some v => dinsert ts v s.rssiM
      | none => s.rssiM
    let rtt1 :=
      match matchRtt cl with
      | some v => dinsert ts (rttNorm v) s.rttM
      | none => s.rttM
    let qual1 :=
      match matchQuality cl with
      | some v => dinsert ts v s.qualM
      | none => s.qualM
    ⟨ctx1, acts1, rssi1, rtt1, qual1⟩

/-- Run of parse_log_with_metrics from a given starting state. -/
def runDetailed (s : DState) (lines : List (List Char)) : DState :=
  lines.foldl stepDetailed s

/-- parse_log_with_metrics of analyze_bilateral_phase_detailed.py. -/
def parse_log_with_metrics (lines : List (List Char)) : DState :=
  runDetailed ⟨none, [], [], [], []⟩ lines

/-- Key list of a metric dict. -/
def keysOf {α : Type} (m : List (Nat × α)) : List Nat := m.map Prod.fst

/-- The sorted-key scan of find_last_known_metric: walk the keys in ascending
order, remember the last key that is ≤ t, and break at the first key above t. -/
def scanLast (t : Nat) : List Nat → Option Nat → Option Nat
  | [], last => last
  | k :: ks, last => if k ≤ t then scanLast t ks (some k) else last

/-- Python dict lookup d.get(k): the value stored under k, if any. -/
def lookupD {α : Type} (k : Nat) : List (Nat × α) → Option α
  | [] => none
  | (k1, v) :: t => if k1 = k then some v else lookupD k t

/-- find_last_known_metric of analyze_bilateral_phase_detailed.py (lines
99-119): carry-forward lookup.  Python's sorted(...) over the dict keys is
embedded as insertion sort (any correct sort of the distinct keys yields the
same ascending list). -/
def find_last_known_metric {α : Type} (t : Nat) (m : List (Nat × α)) : Option α :=
  if m.isEmpty then none
  else
    match scanLast t (List.insertionSort (fun a b => a ≤ b) (keysOf m)) none with
    | some k => lookupD k m
    | none => none

/-- Python tuple order on (timestamp, period) pairs, used by sorted(...). -/
def tupLe (a b : Nat × Nat) : Prop := a.1 < b.1 ∨ (a.1 = b.1 ∧ a.2 ≤ b.2)

instance : DecidableRel tupLe := fun a b => by unfold tupLe; infer_instance

instance : IsTotal (Nat × Nat) tupLe :=
  ⟨by intro a b; unfold tupLe; omega⟩

instance : IsTrans (Nat × Nat) tupLe :=
  ⟨by intro a b c; unfold tupLe; omega⟩

/-- parse_log of analyze_bilateral_timing_fixed.py: the deduplicated extractor.
The loop body is the same as parse_log_active_only's; the collected pairs are
put in a set and returned as sorted(list(set(...))), embedded as sorting the
duplicate-free list of collected pairs by the tuple order. -/
def parse_log (lines : List (List Char)) : List (Nat × Nat) :=
  List.insertionSort tupLe (parseActsFrom none lines).dedup

/-- One activation event handed to the aligner: a (timestamp, period) pair.
The Python loop works on arbitrary ints, so both fields are integers. -/
structure Act where
  ts : Int
  period : Int
deriving DecidableEq, Repr

/-- One row produced by an iteration of the alignment loop, together with the
indices of the two activation events it was computed from (si = server/leader
index, ci = client/follower index at that iteration). -/
structure PairedSample where
  si : Nat
  ci : Nat
  leaderTs : Int
  leaderPeriod : Int
  followerTs : Int
  target : Int
  phaseError : Int
deriving DecidableEq, Repr

/-- The sample emitted by the loop iteration at indices (si, ci) from leader
event s and follower event f: target = leader timestamp + period / 2 (floor,
as Python's // — the divisor 2 is positive, so Int division agrees), phase
error = follower timestamp − target. -/
def mkSample (si ci : Nat) (s f : Act) : PairedSample :=
  ⟨si, ci, s.ts, s.period, f.ts, s.ts + s.period / 2, f.ts - (s.ts + s.period / 2)⟩

/-- The alignment loop of main (analyze_bilateral_phase.py lines 96-138,
analyze_bilateral_phase_detailed.py lines 171-227), started at indices
(si, ci): while both indices are in range, emit a sample for the current
pair, then advance the follower index when the phase error is below minus
half the leader period, the leader index when it is above half the leader
period, and both otherwise. -/
def alignFrom (ls cs : List Act) (si ci : Nat) : List PairedSample :=
  if h : si < ls.length ∧ ci < cs.length then
    let s := ls.get ⟨si, h.1⟩
    let f := cs.get ⟨ci, h.2⟩
    let e := f.ts - (s.ts + s.period / 2)
    if e < -(s.period / 2) then mkSample si ci s f :: alignFrom ls cs si (ci + 1)
    else if e > s.period / 2 then mkSample si ci s f :: alignFrom ls cs (si + 1) ci
    else mkSample si ci s f :: alignFrom ls cs (si + 1) (ci + 1)
  else []
termination_by (ls.length - si) + (cs.length - ci)
decreasing_by all_goals omega

/-- The full alignment run over the two extracted sequences. -/
def align (ls cs : List Act) : List PairedSample := alignFrom ls cs 0 0

/-- Status categories assigned by the classifier. -/
inductive Status where
  | good
  | warning
  | overlap
  | drift
deriving DecidableEq, Repr

/-- The status classification of main (analyze_bilateral_phase.py lines
107-118): thresholds checked in order. -/
def classify (e : Int) : Status :=
  if |e| ≤ 10 then Status.good
  else if |e| ≤ 50 then Status.warning
  else if e < 0 then Status.overlap
  else Status.drift

/-- One entry of phase_with_metrics: a phase error with its carried-forward
metric values (analyze_bilateral_phase_detailed.py line 188). -/
structure MTuple where
  err : Int
  rssi : Option Int
  rtt : Option ℚ
  qual : Option Nat
deriving DecidableEq

/-- poor_metrics (line 257): entries of phase_with_metrics with |err| > 50. -/
def poorMetrics (pm : List MTuple) : List MTuple :=
  pm.filter (fun x => 50 < |x.err|)

/-- rssi_outliers (line 303): Poor-bucket entries with a present signal
strength below the fixed weak threshold of -90 dBm. -/
def rssiOutliers (poor : List MTuple) : List MTuple :=
  poor.filter (fun x =>
    match x.rssi with
    | some r => decide (r < -90)
    | none => false)

/-- The weak-signal correlation condition (line 313):
len(rssi_outliers) > len(poor_metrics) * 0.3.  The float constant 0.3 is
modelled as the rational 3/10; at the bucket sizes of the claim the double
product 10 * 0.3 rounds to exactly 3.0, so the two readings agree there. -/
def rssiCorrFlag (pm : List MTuple) : Prop :=
  ((rssiOutliers (poorMetrics pm)).length : ℚ) > ((poorMetrics pm).length : ℚ) * (3 / 10)

/-- Halting equation of the alignment loop: out of range on either side. -/
theorem alignFrom_stop (ls cs : List Act) (si ci : Nat)
    (h : ¬(si < ls.length ∧ ci < cs.length)) : alignFrom ls cs si ci = [] := by
  rw [alignFrom]
  exact dif_neg h

/-- Branch equation: phase error below minus half the period, follower advance. -/
theorem alignFrom_eq_skipF (ls cs : List Act) (si ci : Nat)
    (h1 : si < ls.length) (h2 : ci < cs.length)
    (he : (cs.get ⟨ci, h2⟩).ts - ((ls.get ⟨si, h1⟩).ts + (ls.get ⟨si, h1⟩).period / 2)
      < -((ls.get ⟨si, h1⟩).period / 2)) :
    alignFrom ls cs si ci =
      mkSample si ci (ls.get ⟨si, h1⟩) (cs.get ⟨ci, h2⟩) :: alignFrom ls cs si (ci + 1) := by
  rw [alignFrom]
  rw [dif_pos (And.intro h1 h2)]
  exact if_pos he

/-- Branch equation: phase error above half the period, leader advance. -/
theorem alignFrom_eq_skipL (ls cs : List Act) (si ci : Nat)
    (h1 : si < ls.length) (h2 : ci < cs.length)
    (hne : ¬ ((cs.get ⟨ci, h2⟩).ts - ((ls.get ⟨si, h1⟩).ts + (ls.get ⟨si, h1⟩).period / 2)
      < -((ls.get ⟨si, h1⟩).period / 2)))
    (he : (cs.get ⟨ci, h2⟩).ts - ((ls.get ⟨si, h1⟩).ts + (ls.get ⟨si, h1⟩).period / 2)
      > (ls.get ⟨si, h1⟩).period / 2) :
    alignFrom ls cs si ci =
      mkSample si ci (ls.get ⟨si, h1⟩) (cs.get ⟨ci, h2⟩) :: alignFrom ls cs (si + 1) ci := by
  rw [alignFrom]
  rw [dif_pos (And.intro h1 h2)]
  rw [if_neg hne]
  exact if_pos he

/-- Branch equation: phase error within the half-period band, both advance. -/
theorem alignFrom_eq_both (ls cs : List Act) (si ci : Nat)
    (h1 : si < ls.length) (h2 : ci < cs.length)
    (hne : ¬ ((cs.get ⟨ci, h2⟩).ts - ((ls.get ⟨si, h1⟩).ts + (ls.get ⟨si, h1⟩).period / 2)
      < -((ls.get ⟨si, h1⟩).period / 2)))
    (hne2 : ¬ ((cs.get ⟨ci, h2⟩).ts - ((ls.get ⟨si, h1⟩).ts + (ls.get ⟨si, h1⟩).period / 2)
      > (ls.get ⟨si, h1⟩).period / 2)) :
    alignFrom ls cs si ci =
      mkSample si ci (ls.get ⟨si, h1⟩) (cs.get ⟨ci, h2⟩) :: alignFrom ls cs (si + 1) (ci + 1) := by
  rw [alignFrom]
  rw [dif_pos (And.intro h1 h2)]
  rw [if_neg hne]
  exact if_neg hne2

/-- Index lower bounds: every sample of a run from (si, ci) has indices ≥ (si, ci). -/
theorem alignFrom_bounds (ls cs : List Act) (si ci : Nat) :
    ∀ x ∈ alignFrom ls cs si ci, si ≤ x.si ∧ ci ≤ x.ci := by
  induction si, ci using alignFrom.induct ls cs with
  | case1 si ci h s f e hlt ih =>
    rw [alignFrom_eq_skipF ls cs si ci h.1 h.2 hlt]
    intro x hx
    rcases List.mem_cons.mp hx with rfl | hx
    · exact ⟨Nat.le_refl _, Nat.le_refl _⟩
    · have hb := ih x hx
      omega
  | case2 si ci h s f e hne hgt ih =>
    rw [alignFrom_eq_skipL ls cs si ci h.1 h.2 hne hgt]
    intro x hx
    rcases List.mem_cons.mp hx with rfl | hx
    · exact ⟨Nat.le_refl _, Nat.le_refl _⟩
    · have hb := ih x hx
      omega
  | case3 si ci h s f e hne hne2 ih =>
    rw [alignFrom_eq_both ls cs si ci h.1 h.2 hne hne2]
    intro x hx
    rcases List.mem_cons.mp hx with rfl | hx
    · exact ⟨Nat.le_refl _, Nat.le_refl _⟩
    · have hb := ih x hx
      omega
  | case4 si ci h =>
    rw [alignFrom_stop ls cs si ci h]
    intro x hx
    cases hx

/-- Pointer monotonicity along the emitted sequence: indices never decrease and
their sum strictly increases at every iteration. -/
theorem alignFrom_pairwise (ls cs : List Act) (si ci : Nat) :
    List.Pairwise (fun a b => a.si ≤ b.si ∧ a.ci ≤ b.ci ∧ a.si + a.ci < b.si + b.ci)
      (alignFrom ls cs si ci) := by
  induction si, ci using alignFrom.induct ls cs with
  | case1 si ci h s f e hlt ih =>
    rw [alignFrom_eq_skipF ls cs si ci h.1 h.2 hlt]
    refine List.Pairwise.cons ?_ ih
    intro b hb
    have hbb := alignFrom_bounds ls cs si (ci + 1) b hb
    simp only [mkSample]
    omega
  | case2 si ci h s f e hne hgt ih =>
    rw [alignFrom_eq_skipL ls cs si ci h.1 h.2 hne hgt]
    refine List.Pairwise.cons ?_ ih
    intro b hb
    have hbb := alignFrom_bounds ls cs (si + 1) ci b hb
    simp only [mkSample]
    omega
  | case3 si ci h s f e hne hne2 ih =>
    rw [alignFrom_eq_both ls cs si ci h.1 h.2 hne hne2]
    refine List.Pairwise.cons ?_ ih
    intro b hb
    have hbb := alignFrom_bounds ls cs (si + 1) (ci + 1) b hb
    simp only [mkSample]
    omega
  | case4 si ci h =>
    rw [alignFrom_stop ls cs si ci h]
    exact List.Pairwise.nil

/-- Iteration bound: a run from (si, ci) emits at most as many samples as
there are unconsumed events. -/
theorem alignFrom_length (ls cs : List Act) (si ci : Nat) :
    (alignFrom ls cs si ci).length ≤ (ls.length - si) + (cs.length - ci) := by
  induction si, ci using alignFrom.induct ls cs with
  | case1 si ci h s f e hlt ih =>
    rw [alignFrom_eq_skipF ls cs si ci h.1 h.2 hlt]
    simp only [List.length_cons]
    omega
  | case2 si ci h s f e hne hgt ih =>
    rw [alignFrom_eq_skipL ls cs si ci h.1 h.2 hne hgt]
    simp only [List.length_cons]
    omega
  | case3 si ci h s f e hne hne2 ih =>
    rw [alignFrom_eq_both ls cs si ci h.1 h.2 hne hne2]
    simp only [List.length_cons]
    omega
  | case4 si ci h =>
    rw [alignFrom_stop ls cs si ci h]
    simp

/-- Claim C3: at every aligner iteration with both indices in range, with
leader event s, follower event f, target s.ts + s.period/2 (floor) and phase
error f.ts - target: if the error is below -(s.period/2) only the follower
index advances by one; else if it is above s.period/2 only the leader index
advances by one; otherwise both advance by one.  Each branch emits the
current pair's sample and continues from the advanced indices. -/
theorem claim_C3_aligner_advancement (ls cs : List Act) (si ci : Nat)
    (h1 : si < ls.length) (h2 : ci < cs.length) :
    ((cs.get ⟨ci, h2⟩).ts - ((ls.get ⟨si, h1⟩).ts + (ls.get ⟨si, h1⟩).period / 2)
        < -((ls.get ⟨si, h1⟩).period / 2) →
      alignFrom ls cs si ci =
        mkSample si ci (ls.get ⟨si, h1⟩) (cs.get ⟨ci, h2⟩) :: alignFrom ls cs si (ci + 1)) ∧
    (-((ls.get ⟨si, h1⟩).period / 2)
        ≤ (cs.get ⟨ci, h2⟩).ts - ((ls.get ⟨si, h1⟩).ts + (ls.get ⟨si, h1⟩).period / 2) →
      (ls.get ⟨si, h1⟩).period / 2
        < (cs.get ⟨ci, h2⟩).ts - ((ls.get ⟨si, h1⟩).ts + (ls.get ⟨si, h1⟩).period / 2) →
      alignFrom ls cs si ci =
        mkSample si ci (ls.get ⟨si, h1⟩) (cs.get ⟨ci, h2⟩) :: alignFrom ls cs (si + 1) ci) ∧
    (-((ls.get ⟨si, h1⟩).period / 2)
        ≤ (cs.get ⟨ci, h2⟩).ts - ((ls.get ⟨si, h1⟩).ts + (ls.get ⟨si, h1⟩).period / 2) →
      (cs.get ⟨ci, h2⟩).ts - ((ls.get ⟨si, h1⟩).ts + (ls.get ⟨si, h1⟩).period / 2)
        ≤ (ls.get ⟨si, h1⟩).period / 2 →
      alignFrom ls cs si ci =
        mkSample si ci (ls.get ⟨si, h1⟩) (cs.get ⟨ci, h2⟩) :: alignFrom ls cs (si + 1) (ci + 1)) := by
  refine ⟨?_, ?_, ?_⟩
  · intro he
    exact alignFrom_eq_skipF ls cs si ci h1 h2 he
  · intro hlo he
    exact alignFrom_eq_skipL ls cs si ci h1 h2 (by omega) he
  · intro hlo hhi
    exact alignFrom_eq_both ls cs si ci h1 h2 (by omega) (by omega)

/-- Witness for C3 at a concrete input: one leader event at 0 with period
2000 and one follower event exactly on the antiphase target 1000 (phase
error 0, the within-band branch). -/
theorem claim_C3_witness :
    alignFrom [⟨0, 2000⟩] [⟨1000, 2000⟩] 0 0 =
      mkSample 0 0 ⟨0, 2000⟩ ⟨1000, 2000⟩ :: alignFrom [⟨0, 2000⟩] [⟨1000, 2000⟩] 1 1 :=
  (claim_C3_aligner_advancement [⟨0, 2000⟩] [⟨1000, 2000⟩] 0 0
    (by decide) (by decide)).2.2 (by decide) (by decide)

/-- Claim C9: along one run of the alignment loop the leader and follower
indices never decrease, every iteration strictly increases their sum, and
the loop emits (hence iterates) at most len(leaders) + len(followers) times. -/
theorem claim_C9_pointers_monotone_and_bounded (ls cs : List Act) :
    List.Pairwise (fun a b => a.si ≤ b.si ∧ a.ci ≤ b.ci ∧ a.si + a.ci < b.si + b.ci)
      (align ls cs) ∧
    (align ls cs).length ≤ ls.length + cs.length := by
  constructor
  · exact alignFrom_pairwise ls cs 0 0
  · have h := alignFrom_length ls cs 0 0
    unfold align
    omega

/-- Claim C1 fails on the code: the loop emits a PairedSample on every
iteration, including skip iterations, so after a follower-only advance the
same leader event is referenced again.  With leader events [(5000, 2000)]
and follower events [(0, 2000), (6000, 2000)] the run emits two samples and
both reference leader event 0 (the emitted leader-index list is [0, 0]). -/
theorem claim_C1_counterexample :
    ¬ ((align [⟨5000, 2000⟩] [⟨0, 2000⟩, ⟨6000, 2000⟩]).map (fun x => x.si)).Nodup := by
  have h : (align [⟨5000, 2000⟩] [⟨0, 2000⟩, ⟨6000, 2000⟩]).map (fun x => x.si) = [0, 0] := by
    simp [align, alignFrom, mkSample]
  rw [h]
  decide

/-- Claim C1 as amended: no two PairedSamples of one run are computed from
the same pair of activation events (the index pair is strictly increasing in
sum), although a single activation event may be referenced by more than one
PairedSample when a skip advances only the other pointer. -/
theorem claim_C1_amended_no_pair_reuse (ls cs : List Act) :
    List.Pairwise (fun a b => ¬(a.si = b.si ∧ a.ci = b.ci)) (align ls cs) := by
  have h := alignFrom_pairwise ls cs 0 0
  exact h.imp (by intro a b hab; omega)

/-- Claim C4: the classifier statuses are exactly the claimed intervals:
Good iff |e| ≤ 10, Warning iff 10 < |e| ≤ 50, Overlap iff e < -50, Drift iff
e > 50; with the claimed boundary values at 10, 11, 50, 51 and -51. -/
theorem claim_C4_classification_boundaries (e : Int) :
    (classify e = Status.good ↔ |e| ≤ 10) ∧
    (classify e = Status.warning ↔ 10 < |e| ∧ |e| ≤ 50) ∧
    (classify e = Status.overlap ↔ e < -50) ∧
    (classify e = Status.drift ↔ 50 < e) ∧
    classify 10 = Status.good ∧ classify 11 = Status.warning ∧
    classify 50 = Status.warning ∧ classify 51 = Status.drift ∧
    classify (-51) = Status.overlap := by
  refine ⟨?_, ?_, ?_, ?_, by decide, by decide, by decide, by decide, by decide⟩ <;>
  · unfold classify
    rcases le_or_lt 0 e with h0 | h0
    · rw [abs_of_nonneg h0]
      split_ifs <;> simp_all <;> omega
    · rw [abs_of_neg h0]
      split_ifs <;> simp_all <;> omega

/-- Claim C8: rtt unit normalization at ingestion: a recognized raw value v
is stored as v/1000 ms when v > 1000 (microseconds) and as v ms when
v ≤ 1000; v = 1000 is kept as 1000 ms and v = 1001 becomes 1.001 ms; and the
per-line step stores exactly rttNorm of the matched raw value. -/
theorem claim_C8_rtt_unit_normalization (v : Nat) :
    (1000 < v → rttNorm v = (v : ℚ) / 1000) ∧
    (v ≤ 1000 → rttNorm v = (v : ℚ)) ∧
    rttNorm 1000 = 1000 ∧
    rttNorm 1001 = 1001 / 1000 ∧
    (∀ (s : DState) (line : List Char) (ts : Nat),
      matchTs (removeSpaces line) = some ts →
      matchRtt (removeSpaces line) = some v →
      (stepDetailed s line).rttM = dinsert ts (rttNorm v) s.rttM) := by
  refine ⟨?_, ?_, by norm_num [rttNorm], by norm_num [rttNorm], ?_⟩
  · intro h
    rw [rttNorm, if_pos h]
  · intro h
    rw [rttNorm, if_neg (by omega)]
  · intro s line ts hts hrtt
    unfold stepDetailed
    simp only [hts, hrtt]

/-- Witness for C8: the boundary values 1001 and 999, and the concrete RTT
line of the log format stored through the per-line step. -/
theorem claim_C8_witness :
    rttNorm 1001 = (1001 : ℚ) / 1000 ∧ rttNorm 999 = (999 : ℚ) ∧
    (stepDetailed ⟨none, [], [], [], []⟩
        (("I (99) SYNC: RTT measured: 81452 us").toList)).rttM
      = dinsert 99 (rttNorm 81452) [] :=
  ⟨(claim_C8_rtt_unit_normalization 1001).1 (by norm_num),
   (claim_C8_rtt_unit_normalization 999).2.1 (by norm_num),
   (claim_C8_rtt_unit_normalization 81452).2.2.2.2 ⟨none, [], [], [], []⟩ _ 99
     (by decide) (by decide)⟩

/-- Ten Poor-bucket entries (err = 100, so |err| > 50, each with a present
signal-strength value): exactly 4 below the -90 dBm weak threshold. -/
def c7Bucket : List MTuple :=
  [⟨100, some (-95), none, none⟩, ⟨100, some (-95), none, none⟩,
   ⟨100, some (-95), none, none⟩, ⟨100, some (-95), none, none⟩,
   ⟨100, some (-60), none, none⟩, ⟨100, some (-60), none, none⟩,
   ⟨100, some (-60), none, none⟩, ⟨100, some (-60), none, none⟩,
   ⟨100, some (-60), none, none⟩, ⟨100, some (-60), none, none⟩]

/-- The same bucket with only 3 of the 10 entries below the weak threshold. -/
def c7Bucket3 : List MTuple :=
  [⟨100, some (-95), none, none⟩, ⟨100, some (-95), none, none⟩,
   ⟨100, some (-95), none, none⟩, ⟨100, some (-60), none, none⟩,
   ⟨100, some (-60), none, none⟩, ⟨100, some (-60), none, none⟩,
   ⟨100, some (-60), none, none⟩, ⟨100, some (-60), none, none⟩,
   ⟨100, some (-60), none, none⟩, ⟨100, some (-60), none, none⟩]

/-- The rational comparison of the flag condition, restated over naturals:
count > bucket * 3/10 is 3 * bucket < 10 * count. -/
theorem c7_flag_iff (pm : List MTuple) :
    rssiCorrFlag pm ↔
      3 * (poorMetrics pm).length < 10 * (rssiOutliers (poorMetrics pm)).length := by
  unfold rssiCorrFlag
  rw [gt_iff_lt]
  rw [show ((poorMetrics pm).length : ℚ) * (3 / 10)
      = ((3 * (poorMetrics pm).length : ℕ) : ℚ) / 10 by push_cast; ring]
  rw [div_lt_iff₀ (show (0 : ℚ) < 10 by norm_num)]
  rw [show ((rssiOutliers (poorMetrics pm)).length : ℚ) * 10
      = ((10 * (rssiOutliers (poorMetrics pm)).length : ℕ) : ℚ) by push_cast; ring]
  exact_mod_cast Iff.rfl

/-- Claim C7 fails on the code: with a Poor bucket of 10 samples of which
exactly 4 have signal strength below the weak threshold, the source condition
len(rssi_outliers) > len(poor_metrics) * 0.3 evaluates as 4 > 3, so the
weak-signal condition IS flagged as correlated, contrary to the claim. -/
theorem claim_C7_counterexample : rssiCorrFlag c7Bucket :=
  (c7_flag_iff c7Bucket).mpr (by decide)

/-- Claim C7 as amended: the flag fires iff the weak count exceeds 3/10 of
the Poor bucket; at 4 of 10 it IS flagged as correlated, and at 3 of 10 it
is not. -/
theorem claim_C7_amended_flag_threshold (pm : List MTuple) :
    (rssiCorrFlag pm ↔
      3 * (poorMetrics pm).length < 10 * (rssiOutliers (poorMetrics pm)).length) ∧
    rssiCorrFlag c7Bucket ∧ ¬ rssiCorrFlag c7Bucket3 := by
  refine ⟨c7_flag_iff pm, (c7_flag_iff c7Bucket).mpr (by decide), ?_⟩
  intro hc
  have h3 := (c7_flag_iff c7Bucket3).mp hc
  revert h3
  decide

/-- Context states the extraction guard cannot distinguish: equal, or both
falsy (no period seen, or a zero period). -/
def ctxSim (a b : Option Nat) : Prop := a = b ∨ (gate a = false ∧ gate b = false)

/-- The falsy context states are exactly none and some 0. -/
theorem gate_eq_false_iff (a : Option Nat) : gate a = false ↔ a = none ∨ a = some 0 := by
  cases a with
  | none => simp [gate]
  | some c => simp [gate]

/-- The epoch update preserves context similarity (a match overwrites both
contexts with the same value; no match keeps both). -/
theorem ctxUpdate_sim (a b : Option Nat) (cl : List Char) (h : ctxSim a b) :
    ctxSim (ctxUpdate a cl) (ctxUpdate b cl) := by
  unfold ctxUpdate
  cases matchEpoch cl with
  | some c => exact Or.inl rfl
  | none => exact h

/-- One extractor step behaves identically on similar contexts: same emitted
activation, similar next contexts. -/
theorem stepPhase_sim (a b : Option Nat) (l : List Char) (h : ctxSim a b) :
    (stepPhase a l).2 = (stepPhase b l).2 ∧ ctxSim (stepPhase a l).1 (stepPhase b l).1 := by
  have hu := ctxUpdate_sim a b (removeSpaces l) h
  simp only [stepPhase]
  cases hmatch : matchActivePhase (removeSpaces l) with
  | none => simp only [hmatch]; exact ⟨trivial, hu⟩
  | some ts =>
    simp only [hmatch]
    rcases hu with heq | ⟨hga, hgb⟩
    · rw [heq]
      exact ⟨rfl, Or.inl rfl⟩
    · rcases (gate_eq_false_iff _).mp hga with ha0 | ha0 <;>
        rcases (gate_eq_false_iff _).mp hgb with hb0 | hb0 <;>
        rw [ha0, hb0] <;>
        exact ⟨rfl, Or.inr ⟨by simp [gate], by simp [gate]⟩⟩

/-- The legacy extractor run is identical from two guard-indistinguishable
starting contexts. -/
theorem parseActsFrom_sim : ∀ (lines : List (List Char)) (a b : Option Nat),
    ctxSim a b → parseActsFrom a lines = parseActsFrom b lines := by
  intro lines
  induction lines with
  | nil => intro a b _; rfl
  | cons l ls ih =>
    intro a b h
    have hs := stepPhase_sim a b l h
    unfold parseActsFrom
    rcases hp : stepPhase a l with ⟨a1, ev1⟩
    rcases hq : stepPhase b l with ⟨b1, ev2⟩
    rw [hp, hq] at hs
    obtain ⟨hev, hsim⟩ := hs
    simp only at hev hsim
    subst hev
    cases ev1 with
    | none =>
      show parseActsFrom a1 ls = parseActsFrom b1 ls
      exact ih a1 b1 hsim
    | some ev =>
      show ev :: parseActsFrom a1 ls = ev :: parseActsFrom b1 ls
      rw [ih a1 b1 hsim]

/-- One detailed-extractor step on states that agree except for
guard-indistinguishable contexts. -/
theorem stepDetailed_sim (s1 s2 : DState) (l : List Char)
    (hc : ctxSim s1.ctx s2.ctx) (ha : s1.acts = s2.acts) (hr : s1.rssiM = s2.rssiM)
    (ht : s1.rttM = s2.rttM) (hq : s1.qualM = s2.qualM) :
    ctxSim (stepDetailed s1 l).ctx (stepDetailed s2 l).ctx ∧
    (stepDetailed s1 l).acts = (stepDetailed s2 l).acts ∧
    (stepDetailed s1 l).rssiM = (stepDetailed s2 l).rssiM ∧
    (stepDetailed s1 l).rttM = (stepDetailed s2 l).rttM ∧
    (stepDetailed s1 l).qualM = (stepDetailed s2 l).qualM := by
  have hu := ctxUpdate_sim s1.ctx s2.ctx (removeSpaces l) hc
  simp only [stepDetailed]
  cases hts : matchTs (removeSpaces l) with
  | none => simp only [hts]; exact ⟨hc, ha, hr, ht, hq⟩
  | some ts =>
    simp only [hts, ha, hr, ht, hq]
    rcases hu with heq | ⟨hga, hgb⟩
    · rw [heq]
      refine ⟨Or.inl rfl, ?_, ?_, ?_, ?_⟩ <;> first | rfl | trivial
    · refine ⟨Or.inr ⟨hga, hgb⟩, ?_, trivial, trivial, trivial⟩
      cases hmt : matchTaskActive (removeSpaces l) with
      | false => simp [hmt]
      | true =>
        rcases (gate_eq_false_iff _).mp hga with ha0 | ha0 <;>
          rcases (gate_eq_false_iff _).mp hgb with hb0 | hb0 <;>
          simp [hmt, ha0, hb0]

/-- The detailed extractor's activation output is identical from two
guard-indistinguishable starting contexts (other fields being equal). -/
theorem runDetailed_sim : ∀ (lines : List (List Char)) (s1 s2 : DState),
    ctxSim s1.ctx s2.ctx → s1.acts = s2.acts → s1.rssiM = s2.rssiM →
    s1.rttM = s2.rttM → s1.qualM = s2.qualM →
    (runDetailed s1 lines).acts = (runDetailed s2 lines).acts := by
  intro lines
  induction lines with
  | nil => intro s1 s2 _ ha _ _ _; exact ha
  | cons l ls ih =>
    intro s1 s2 hc ha hr ht hq
    have hs := stepDetailed_sim s1 s2 l hc ha hr ht hq
    simp only [runDetailed, List.foldl_cons]
    exact ih (stepDetailed s1 l) (stepDetailed s2 l) hs.1 hs.2.1 hs.2.2.1 hs.2.2.2.1 hs.2.2.2.2

/-- Claim C10: a period-update line carrying 0 puts the extractor in a
context that suppresses every subsequent activation exactly as if no period
update had been seen: the concrete zero-period epoch line forces the context
to some 0 (overriding any earlier value), and extraction from the some-0
context equals extraction from the no-context state, for both the legacy and
the detailed extractor — until a later non-zero epoch line, which overwrites
both contexts identically. -/
theorem claim_C10_zero_period_suppression (lines : List (List Char)) (ctx : Option Nat) :
    ctxUpdate ctx (removeSpaces (("Motor epoch set: 123 us, cycle: 0 ms").toList)) = some 0 ∧
    parseActsFrom (some 0) lines = parseActsFrom none lines ∧
    (runDetailed ⟨some 0, [], [], [], []⟩ lines).acts
      = (runDetailed ⟨none, [], [], [], []⟩ lines).acts := by
  refine ⟨?_, ?_, ?_⟩
  · unfold ctxUpdate
    rw [show matchEpoch (removeSpaces (("Motor epoch set: 123 us, cycle: 0 ms").toList))
        = some 0 from by decide]
  · exact parseActsFrom_sim lines (some 0) none (Or.inr ⟨rfl, rfl⟩)
  · exact runDetailed_sim lines _ _ (Or.inr ⟨rfl, rfl⟩) rfl rfl rfl rfl

/-- Claim C6 fails on the code for the non-deduplicated extractor: it does
not sort, so input lines carrying out-of-order timestamps (100 then 50,
under a valid period context) produce the activation sequence
[(100, 2000), (50, 2000)], whose timestamps decrease. -/
theorem claim_C6_counterexample :
    ¬ List.Pairwise (fun a b => a.1 ≤ b.1)
      (parse_log_active_only
        [("Motor epoch set: 1 us, cycle: 2000 ms").toList,
         ("I (100) MOTOR_TASK: SERVER: Cycle starts ACTIVE").toList,
         ("I (50) MOTOR_TASK: SERVER: Cycle starts ACTIVE").toList]) := by
  have h : parse_log_active_only
      [("Motor epoch set: 1 us, cycle: 2000 ms").toList,
       ("I (100) MOTOR_TASK: SERVER: Cycle starts ACTIVE").toList,
       ("I (50) MOTOR_TASK: SERVER: Cycle starts ACTIVE").toList]
      = [(100, 2000), (50, 2000)] := by decide
  rw [h]
  simp [List.pairwise_cons]

/-- Claim C6 as amended: only the deduplicated extractor
(parse_log of analyze_bilateral_timing_fixed.py) sorts its output, so its
activation sequence has non-decreasing timestamps for every input; the
non-deduplicated extractor emits events in input line order, and its output
is non-decreasing only when the input lines' timestamps are. -/
theorem claim_C6_amended_dedup_extractor_sorted (lines : List (List Char)) :
    List.Pairwise (fun a b => a.1 ≤ b.1) (parse_log lines) := by
  unfold parse_log
  have hs := List.sorted_insertionSort tupLe ((parseActsFrom none lines).dedup)
  exact List.Pairwise.imp (fun hab => by unfold tupLe at hab; omega) hs

/-- A scan result that is not the accumulator is a key ≤ t of the list. -/
theorem scanLast_mem (t : Nat) : ∀ (ks : List Nat) (acc : Option Nat) (k : Nat),
    scanLast t ks acc = some k → (k ∈ ks ∧ k ≤ t) ∨ acc = some k := by
  intro ks
  induction ks with
  | nil => intro acc k h; exact Or.inr h
  | cons a ks ih =>
    intro acc k h
    unfold scanLast at h
    by_cases ha : a ≤ t
    · rw [if_pos ha] at h
      rcases ih (some a) k h with ⟨hm, hle⟩ | heq
      · exact Or.inl ⟨List.mem_cons_of_mem a hm, hle⟩
      · obtain rfl := Option.some.inj heq
        exact Or.inl ⟨List.mem_cons_self a ks, ha⟩
    · rw [if_neg ha] at h
      exact Or.inr h

/-- With a some accumulator the scan always returns some key. -/
theorem scanLast_isSome (t : Nat) : ∀ (ks : List Nat) (a : Nat),
    ∃ k, scanLast t ks (some a) = some k := by
  intro ks
  induction ks with
  | nil => intro a; exact ⟨a, rfl⟩
  | cons b ks ih =>
    intro a
    unfold scanLast
    by_cases hb : b ≤ t
    · rw [if_pos hb]
      exact ih b
    · rw [if_neg hb]
      exact ⟨a, rfl⟩

/-- If every key exceeds t, the scan returns its accumulator (the break at
the first key above t is immediate on a sorted list). -/
theorem scanLast_none_of_all_gt (t : Nat) (ks : List Nat) (acc : Option Nat)
    (h : ∀ x ∈ ks, ¬ x ≤ t) : scanLast t ks acc = acc := by
  cases ks with
  | nil => rfl
  | cons a ks =>
    unfold scanLast
    rw [if_neg (h a (List.mem_cons_self a ks))]

/-- On a sorted key list containing a key ≤ t, the scan returns some key
of the list that is ≤ t. -/
theorem scanLast_some_of_exists (t : Nat) : ∀ (ks : List Nat),
    List.Sorted (fun a b => a ≤ b) ks → ∀ (acc : Option Nat),
    (∃ x ∈ ks, x ≤ t) →
    ∃ k, scanLast t ks acc = some k ∧ k ∈ ks ∧ k ≤ t := by
  intro ks
  induction ks with
  | nil =>
    intro _ acc hx
    obtain ⟨x, hx, _⟩ := hx
    cases hx
  | cons a ks ih =>
    intro hsort acc hx
    obtain ⟨x, hxm, hxt⟩ := hx
    have hca := List.sorted_cons.mp hsort
    unfold scanLast
    by_cases ha : a ≤ t
    · rw [if_pos ha]
      obtain ⟨k, hk⟩ := scanLast_isSome t ks a
      refine ⟨k, hk, ?_⟩
      rcases scanLast_mem t ks (some a) k hk with ⟨hm, hle⟩ | heq
      · exact ⟨List.mem_cons_of_mem a hm, hle⟩
      · obtain rfl := Option.some.inj heq
        exact ⟨List.mem_cons_self a ks, ha⟩
    · rw [if_neg ha]
      rcases List.mem_cons.mp hxm with rfl | hx2
      · exact absurd hxt ha
      · have := hca.1 x hx2
        omega

/-- On a sorted key list the scan result dominates every key ≤ t. -/
theorem scanLast_max (t : Nat) : ∀ (ks : List Nat),
    List.Sorted (fun a b => a ≤ b) ks → ∀ (acc : Option Nat) (k : Nat),
    scanLast t ks acc = some k → ∀ x ∈ ks, x ≤ t → x ≤ k := by
  intro ks
  induction ks with
  | nil =>
    intro _ acc k _ x hx
    cases hx
  | cons a ks ih =>
    intro hsort acc k h x hx hxt
    have hca := List.sorted_cons.mp hsort
    unfold scanLast at h
    by_cases ha : a ≤ t
    · rw [if_pos ha] at h
      rcases List.mem_cons.mp hx with rfl | hx2
      · rcases scanLast_mem t ks (some x) k h with ⟨hm, _⟩ | heq
        · exact hca.1 k hm
        · obtain rfl := Option.some.inj heq
          exact Nat.le_refl x
      · exact ih hca.2 (some a) k h x hx2 hxt
    · rw [if_neg ha] at h
      rcases List.mem_cons.mp hx with rfl | hx2
      · omega
      · have := hca.1 x hx2
        omega

/-- A found association belongs to the dict. -/
theorem lookupD_mem {α : Type} (k : Nat) : ∀ (m : List (Nat × α)) (v : α),
    lookupD k m = some v → (k, v) ∈ m := by
  intro m
  induction m with
  | nil => intro v h; cases h
  | cons p m ih =>
    intro v h
    obtain ⟨k1, v1⟩ := p
    unfold lookupD at h
    by_cases hk : k1 = k
    · rw [if_pos hk] at h
      obtain rfl := Option.some.inj h
      rw [hk]
      exact List.mem_cons_self _ m
    · rw [if_neg hk] at h
      exact List.mem_cons_of_mem _ (ih v h)

/-- With duplicate-free keys, lookup finds exactly the stored association. -/
theorem lookupD_of_mem_nodup {α : Type} (k : Nat) (v : α) : ∀ (m : List (Nat × α)),
    (keysOf m).Nodup → (k, v) ∈ m → lookupD k m = some v := by
  intro m
  induction m with
  | nil => intro _ h; cases h
  | cons p m ih =>
    intro hnd hm
    obtain ⟨k1, v1⟩ := p
    have hnd2 := List.nodup_cons.mp hnd
    unfold lookupD
    rcases List.mem_cons.mp hm with heq | hm2
    · rw [Prod.mk.injEq] at heq
      obtain ⟨rfl, rfl⟩ := heq
      rw [if_pos rfl]
    · by_cases hk : k1 = k
      · exfalso
        apply hnd2.1
        subst hk
        show k1 ∈ m.map Prod.fst
        exact List.mem_map.mpr ⟨(k1, v), hm2, rfl⟩
      · rw [if_neg hk]
        exact ih hnd2.2 hm2

/-- A present key always yields a value. -/
theorem lookupD_isSome_of_mem {α : Type} (k : Nat) : ∀ (m : List (Nat × α)),
    k ∈ keysOf m → ∃ v, lookupD k m = some v := by
  intro m
  induction m with
  | nil => intro h; cases h
  | cons p m ih =>
    intro hk
    obtain ⟨k1, v1⟩ := p
    unfold lookupD
    by_cases he : k1 = k
    · rw [if_pos he]
      exact ⟨v1, rfl⟩
    · rw [if_neg he]
      apply ih
      rcases List.mem_cons.mp hk with heq | hm
      · exact absurd heq.symm he
      · exact hm

/-- The key of a stored association is a key of the dict. -/
theorem keysOf_mem_of_mem {α : Type} (m : List (Nat × α)) (p : Nat × α) (hp : p ∈ m) :
    p.1 ∈ keysOf m := by
  show p.1 ∈ m.map Prod.fst
  exact List.mem_map.mpr ⟨p, hp, rfl⟩

/-- Every key of the dict comes from a stored association. -/
theorem exists_val_of_key_mem {α : Type} (m : List (Nat × α)) (k : Nat)
    (hk : k ∈ keysOf m) : ∃ p ∈ m, p.1 = k :=
  List.mem_map.mp hk

/-- Claim C5: for every metric dict and query timestamp t, the carry-forward
lookup returns the value stored under the key that is the maximum key ≤ t,
and returns none exactly when no stored key is ≤ t.  The hypothesis is the
dict invariant: keys are duplicate-free. -/
theorem claim_C5_carry_forward_lookup {α : Type} (t : Nat) (m : List (Nat × α))
    (hnd : (keysOf m).Nodup) :
    (∀ v, find_last_known_metric t m = some v ↔
      ∃ k, (k, v) ∈ m ∧ k ≤ t ∧ ∀ p ∈ m, p.1 ≤ t → p.1 ≤ k) ∧
    (find_last_known_metric t m = none ↔ ∀ p ∈ m, ¬ p.1 ≤ t) := by
  by_cases hm : m = []
  · subst hm
    refine ⟨fun v => ?_, by simp [find_last_known_metric]⟩
    constructor
    · intro h
      simp [find_last_known_metric] at h
    · rintro ⟨k, hk, _⟩
      cases hk
  · have hie : m.isEmpty = false := by
      cases m with
      | nil => exact absurd rfl hm
      | cons p m => rfl
    have hperm : (List.insertionSort (fun a b => a ≤ b) (keysOf m)).Perm (keysOf m) :=
      List.perm_insertionSort _ _
    have hsort : List.Sorted (fun a b => a ≤ b)
        (List.insertionSort (fun a b => a ≤ b) (keysOf m)) :=
      List.sorted_insertionSort _ _
    have hmem : ∀ x, x ∈ List.insertionSort (fun a b => a ≤ b) (keysOf m) ↔ x ∈ keysOf m :=
      fun x => hperm.mem_iff
    have hfind : find_last_known_metric t m =
        match scanLast t (List.insertionSort (fun a b => a ≤ b) (keysOf m)) none with
        | some k => lookupD k m
        | none => none := by
      unfold find_last_known_metric
      rw [hie]
      rfl
    by_cases hex : ∃ x ∈ List.insertionSort (fun a b => a ≤ b) (keysOf m), x ≤ t
    · obtain ⟨k, hscan, hkmem, hkt⟩ :=
        scanLast_some_of_exists t _ hsort none hex
      have hmax := scanLast_max t _ hsort none k hscan
      have hkkeys : k ∈ keysOf m := (hmem k).mp hkmem
      obtain ⟨v0, hv0⟩ := lookupD_isSome_of_mem k m hkkeys
      have hfind2 : find_last_known_metric t m = some v0 := by
        rw [hfind, hscan]
        exact hv0
      refine ⟨fun v => ⟨?_, ?_⟩, ⟨?_, ?_⟩⟩
      · intro h
        rw [hfind, hscan] at h
        refine ⟨k, lookupD_mem k m v h, hkt, ?_⟩
        intro p hp hpt
        exact hmax p.1 ((hmem p.1).mpr (keysOf_mem_of_mem m p hp)) hpt
      · rintro ⟨k0, hk0m, hk0t, hk0max⟩
        have h1 : k0 ≤ k :=
          hmax k0 ((hmem k0).mpr (keysOf_mem_of_mem m (k0, v) hk0m)) hk0t
        have h2 : k ≤ k0 := by
          obtain ⟨p, hpm, hpfst⟩ := exists_val_of_key_mem m k hkkeys
          have hple := hk0max p hpm (by rw [hpfst]; exact hkt)
          omega
        have hkk : k = k0 := Nat.le_antisymm h2 h1
        rw [hfind, hscan, hkk]
        exact lookupD_of_mem_nodup k0 v m hnd hk0m
      · intro h
        rw [hfind2] at h
        cases h
      · intro hall
        exfalso
        obtain ⟨x, hxks, hxt⟩ := hex
        obtain ⟨p, hpm, hpfst⟩ := exists_val_of_key_mem m x ((hmem x).mp hxks)
        exact hall p hpm (by rw [hpfst]; exact hxt)
    · push_neg at hex
      have hscan : scanLast t (List.insertionSort (fun a b => a ≤ b) (keysOf m)) none = none :=
        scanLast_none_of_all_gt t _ none (by
          intro x hx
          have := hex x hx
          omega)
      have hfind2 : find_last_known_metric t m = none := by
        rw [hfind, hscan]
      refine ⟨fun v => ⟨?_, ?_⟩, ⟨?_, fun _ => hfind2⟩⟩
      · intro h
        rw [hfind2] at h
        cases h
      · rintro ⟨k0, hk0m, hk0t, _⟩
        exfalso
        have hk0ks := (hmem k0).mpr (keysOf_mem_of_mem m (k0, v) hk0m)
        have := hex k0 hk0ks
        omega
      · intro _ p hp hpt
        have hks := (hmem p.1).mpr (keysOf_mem_of_mem m p hp)
        have := hex p.1 hks
        omega

/-- Witness for C5 at a concrete dict: keys 5 and 3 (distinct), query at 4;
the maximum key ≤ 4 is 3, whose stored value 7 is returned. -/
theorem claim_C5_witness :
    find_last_known_metric 4 [(5, (100 : Int)), (3, 7)] = some 7 ∧
    (∃ k, (k, (7 : Int)) ∈ [(5, (100 : Int)), (3, 7)] ∧ k ≤ 4 ∧
      ∀ p ∈ [(5, (100 : Int)), (3, 7)], p.1 ≤ 4 → p.1 ≤ k) := by
  have h := (claim_C5_carry_forward_lookup 4 [(5, (100 : Int)), (3, 7)] (by decide)).1 7
  exact ⟨by decide, h.mp (by decide)⟩

/-- A substring occurrence survives prepending a character. -/
theorem hasSub_cons (pat : List Char) (c : Char) (t : List Char)
    (h : hasSub pat t = true) : hasSub pat (c :: t) = true := by
  unfold hasSub
  rw [h, Bool.or_true]

/-- A substring occurrence in the rest after a matched literal is an
occurrence in the whole input. -/
theorem stripLit_hasSub (q : List Char) : ∀ (p l r : List Char),
    stripLit p l = some r → hasSub q r = true → hasSub q l = true := by
  intro p
  induction p with
  | nil =>
    intro l r h hq
    obtain rfl := Option.some.inj h
    exact hq
  | cons a ps ih =>
    intro l r h hq
    cases l with
    | nil => cases h
    | cons c cs =>
      unfold stripLit at h
      by_cases hac : a = c
      · rw [if_pos hac] at h
        exact hasSub_cons q c cs (ih cs r h hq)
      · rw [if_neg hac] at h
        cases h

/-- A substring occurrence in a dropWhile remainder is one in the input. -/
theorem dropWhile_hasSub (q : List Char) (f : Char → Bool) : ∀ (l : List Char),
    hasSub q (l.dropWhile f) = true → hasSub q l = true := by
  intro l
  induction l with
  | nil => intro h; exact h
  | cons c cs ih =>
    intro h
    rw [List.dropWhile_cons] at h
    by_cases hf : f c = true
    · rw [if_pos hf] at h
      exact hasSub_cons q c cs (ih h)
    · rw [if_neg hf] at h
      exact h

/-- The remainder of a digit-group parse is the dropWhile remainder. -/
theorem parseDigits_rest (l : List Char) (n : Nat) (r : List Char)
    (h : parseDigits l = some (n, r)) : r = l.dropWhile (fun c => c.isDigit) := by
  unfold parseDigits at h
  by_cases he : (l.takeWhile (fun c => c.isDigit)).isEmpty = true
  · rw [if_pos he] at h
    cases h
  · rw [if_neg he] at h
    obtain ⟨-, h2⟩ := Prod.mk.injEq _ _ _ _ ▸ Option.some.inj h
    exact h2.symm

/-- A successful position scan of the phase activation regex implies the
activation literal occurs in the input. -/
theorem tryActiveAt_hasSub (l : List Char) (n : Nat)
    (h : tryActiveAt l = some n) : hasSub activeLit l = true := by
  unfold tryActiveAt at h
  cases h1 : stripLit iParenLit l with
  | none => simp only [h1] at h; cases h
  | some l1 =>
    simp only [h1] at h
    cases h2 : parseDigits l1 with
    | none => simp only [h2] at h; cases h
    | some p =>
      simp only [h2] at h
      obtain ⟨ts, l2⟩ := p
      cases h3 : stripLit taskLit l2 with
      | none => simp only [h3] at h; cases h
      | some l3 =>
        simp only [h3] at h
        by_cases h4 : hasSub activeLit l3 = true
        · have e2 : hasSub activeLit l2 = true := stripLit_hasSub activeLit taskLit l2 l3 h3 h4
          have hl2 : l2 = l1.dropWhile (fun c => c.isDigit) := parseDigits_rest l1 ts l2 h2
          have e1 : hasSub activeLit l1 = true :=
            dropWhile_hasSub activeLit (fun c => c.isDigit) l1 (hl2 ▸ e2)
          exact stripLit_hasSub activeLit iParenLit l l1 h1 e1
        · rw [if_neg h4] at h
          cases h

/-- Any match of the phase activation regex implies the literal occurs. -/
theorem matchActivePhase_hasSub : ∀ (l : List Char) (n : Nat),
    matchActivePhase l = some n → hasSub activeLit l = true := by
  intro l
  induction l with
  | nil => intro n h; exact tryActiveAt_hasSub [] n h
  | cons c t ih =>
    intro n h
    unfold matchActivePhase searchO at h
    cases ht : tryActiveAt (c :: t) with
    | some r =>
      exact tryActiveAt_hasSub (c :: t) r ht
    | none =>
      rw [ht] at h
      exact hasSub_cons activeLit c t (ih n h)

/-- Any match of the detailed script's activation regex implies the literal
occurs. -/
theorem matchTaskActive_hasSub : ∀ (l : List Char),
    matchTaskActive l = true → hasSub activeLit l = true := by
  intro l
  induction l with
  | nil => intro h; cases h
  | cons c t ih =>
    intro h
    unfold matchTaskActive at h
    rcases Bool.or_eq_true_iff.mp h with h1 | h2
    · unfold tryTaskActiveAt at h1
      cases hs : stripLit taskLit2 (c :: t) with
      | none => simp only [hs] at h1; cases h1
      | some r =>
        simp only [hs] at h1
        exact stripLit_hasSub activeLit taskLit2 (c :: t) r hs h1
    · exact hasSub_cons activeLit c t (ih h2)

/-- A pattern whose head differs from the input head cannot begin there. -/
theorem beginsWith_false_of_ne_head (pc : Char) (pr : List Char) (c : Char)
    (t : List Char) (hc : c ≠ pc) : beginsWith (pc :: pr) (c :: t) = false := by
  unfold beginsWith
  rw [beq_eq_false_iff_ne.mpr (Ne.symm hc), Bool.false_and]

/-- Peeling a character that differs from the pattern head changes nothing. -/
theorem hasSub_cons_ne (pc : Char) (pr : List Char) (c : Char) (t : List Char)
    (hc : c ≠ pc) : hasSub (pc :: pr) (c :: t) = hasSub (pc :: pr) t := by
  have hl : hasSub (pc :: pr) (c :: t)
      = (beginsWith (pc :: pr) (c :: t) || hasSub (pc :: pr) t) := rfl
  rw [hl, beginsWith_false_of_ne_head pc pr c t hc, Bool.false_or]

/-- Digits cannot begin an occurrence of the activation literal, so a digit
run can be peeled off in front of any remainder. -/
theorem hasSub_active_digits (rest : List Char) : ∀ (ds : List Char),
    (∀ c ∈ ds, c.isDigit = true) →
    hasSub activeLit (ds ++ rest) = hasSub activeLit rest := by
  intro ds
  induction ds with
  | nil => intro _; rfl
  | cons d ds ih =>
    intro hds
    have hd : d.isDigit = true := hds d (List.mem_cons_self d ds)
    have hdC : d ≠ 'C' := by
      intro he
      rw [he] at hd
      exact absurd hd (by decide)
    have hAL : activeLit = 'C' :: (("yclestartsACTIVE").toList) := by decide
    rw [List.cons_append, hAL, hasSub_cons_ne 'C' _ d _ hdC, ← hAL]
    exact ih (fun c hc => hds c (List.mem_cons_of_mem d hc))

/-- Device role tag appearing in a log line. -/
inductive Role where
  | server
  | client
deriving DecidableEq

/-- The role tag characters. -/
def roleChars : Role → List Char
  | Role.server => ("SERVER").toList
  | Role.client => ("CLIENT").toList

/-- The space-cleaned form of a line reporting the INACTIVE phase of a
cycle:  I(<digits>)MOTOR_TASK:<ROLE>:CyclestartsINACTIVE .  Every physical
spacing variant of such a line cleans to this form, because cleaning removes
every space. -/
def inactiveCleanForm (ts : List Char) (r : Role) : List Char :=
  'I' :: '(' ::
    (ts ++ ((")MOTOR_TASK:").toList ++ (roleChars r ++ ((":CyclestartsINACTIVE").toList))))

/-- The cleaned INACTIVE line never contains the activation literal: the
literal's head 'C' can only align with the 'C' of the trailing tag, where the
continuation reads INACTIVE, or with the 'C' characters inside the role tag
and the tag itself, all of which mismatch immediately after. -/
theorem inactive_no_active_sub (ts : List Char) (r : Role)
    (hts : ∀ c ∈ ts, c.isDigit = true) :
    hasSub activeLit (inactiveCleanForm ts r) = false := by
  have hAL : activeLit = 'C' :: (("yclestartsACTIVE").toList) := by decide
  unfold inactiveCleanForm
  rw [hAL, hasSub_cons_ne _ _ _ _ (by decide : ('I') ≠ 'C'),
    hasSub_cons_ne _ _ _ _ (by decide : ('(') ≠ 'C'), ← hAL,
    hasSub_active_digits _ ts hts]
  cases r <;> decide

/-- Claim C2: a line reporting the inactive phase of a cycle — any raw line
whose space-cleaned form is  I(<digits>)MOTOR_TASK:<ROLE>:CyclestartsINACTIVE
— yields no ActivationStart in either extractor, whatever spacing the raw
line carried and whatever the current period context or parser state is; and
conversely only a line whose cleaned form contains the literal
CyclestartsACTIVE can ever produce an activation match. -/
theorem claim_C2_inactive_never_extracted (line ts : List Char) (r : Role)
    (hts : ∀ c ∈ ts, c.isDigit = true)
    (hform : removeSpaces line = inactiveCleanForm ts r) :
    (∀ ctx, (stepPhase ctx line).2 = none) ∧
    (∀ s : DState, (stepDetailed s line).acts = s.acts) ∧
    (∀ (l2 : List Char) (n : Nat), matchActivePhase l2 = some n →
      hasSub activeLit l2 = true) := by
  have h0 : hasSub activeLit (removeSpaces line) = false := by
    rw [hform]
    exact inactive_no_active_sub ts r hts
  have hma : matchActivePhase (removeSpaces line) = none := by
    cases hm : matchActivePhase (removeSpaces line) with
    | none => rfl
    | some n =>
      have hc := matchActivePhase_hasSub (removeSpaces line) n hm
      rw [h0] at hc
      cases hc
  have hmt : matchTaskActive (removeSpaces line) = false := by
    cases hm : matchTaskActive (removeSpaces line) with
    | false => rfl
    | true =>
      have hc := matchTaskActive_hasSub (removeSpaces line) hm
      rw [h0] at hc
      cases hc
  refine ⟨?_, ?_, matchActivePhase_hasSub⟩
  · intro ctx
    simp only [stepPhase, hma]
  · intro s
    simp only [stepDetailed]
    cases hts2 : matchTs (removeSpaces line) with
    | none => simp only [hts2]
    | some ts2 => simp [hts2, hmt]

/-- Witness for C2: the concrete INACTIVE line of the real log format, with
its actual spacing; even under a truthy period context (2000) and a
non-empty prior state, neither extractor emits anything from it. -/
theorem claim_C2_witness :
    (stepPhase (some 2000)
        (("I (186574) MOTOR_TASK: CLIENT: Cycle starts INACTIVE").toList)).2 = none ∧
    (stepDetailed ⟨some 2000, [(1, 2000)], [], [], []⟩
        (("I (186574) MOTOR_TASK: CLIENT: Cycle starts INACTIVE").toList)).acts
      = [(1, 2000)] := by
  have h := claim_C2_inactive_never_extracted
    (("I (186574) MOTOR_TASK: CLIENT: Cycle starts INACTIVE").toList)
    (("186574").toList) Role.client (by decide) (by decide)
  exact ⟨h.1 (some 2000), h.2.1 ⟨some 2000, [(1, 2000)], [], [], []⟩⟩
